import Mathlib

/-!
# Verification of the pre-simulation filter stage of the jito-mev-bot repository

This file gives a shallow embedding, in Lean 4, of the transaction intake and
relevance-filtering stage (`preSimulationFilter` in the source), together with
theorems settling the specified properties of that stage.

Addresses are modelled as base58 strings; Unix-millisecond timestamps as `Nat`.
The asynchronous generator is modelled as a function from the list of mempool
updates it consumes to the list of `FilteredTransaction` values it yields; an
uncaught exception thrown out of the generator (which terminates the stream) is
modelled by the `StreamResult.crashed` constructor carrying the values yielded
before the exception.
-/

namespace JitoBot

/-- Base58-encoded account address. -/
abbrev Addr := String

/-- A resolved address lookup table: its on-chain address plus the ordered list
of account addresses it encodes. Mirrors `AddressLookupTableAccount` of
`@solana/web3.js` in the fields this stage reads. -/
structure AddressLookupTableAccount where
  key : Addr
  addresses : List Addr
deriving Repr, DecidableEq

/-- One lookup-table reference on a transaction message: the table's address
and the index lists selecting entries from it. Mirrors
`MessageAddressTableLookup` of `@solana/web3.js`. -/
structure AddressTableLookup where
  accountKey : Addr
  writableIndexes : List Nat
  readonlyIndexes : List Nat
deriving Repr, DecidableEq

/-- The part of a versioned transaction message this stage reads: the static
account keys and the lookup-table references. -/
structure TxMessage where
  staticAccountKeys : List Addr
  addressTableLookups : List AddressTableLookup
deriving Repr, DecidableEq

/-- A versioned transaction (opaque apart from its message). -/
structure VersionedTransaction where
  message : TxMessage
deriving Repr, DecidableEq

/-- The `Timings` record of `types.ts`: per-stage Unix-millisecond
checkpoints; stages not yet reached hold zero. -/
structure Timings where
  mempoolEnd : Nat
  preSimEnd : Nat
  simEnd : Nat
  postSimEnd : Nat
  calcArbEnd : Nat
  buildBundleEnd : Nat
  bundleSent : Nat
deriving Repr, DecidableEq

/-- One unit of the producer stream (`MempoolUpdate` of `mempool.ts`): an
ordered batch of transactions plus the timings stamped so far. -/
structure MempoolUpdate where
  txns : List VersionedTransaction
  timings : Timings
deriving Repr, DecidableEq

/-- The output record of the stage (`FilteredTransaction` in the source):
the transaction, the accounts of interest found in it, and the timings. -/
structure FilteredTransaction where
  txn : VersionedTransaction
  accountsOfInterest : List Addr
  timings : Timings
deriving Repr, DecidableEq

/-- The static skip list of the source
(`SKIP_TX_IF_CONTAINS_ADDRESS`). -/
def SKIP_TX_IF_CONTAINS_ADDRESS : List Addr :=
  ["882DFRCi5akKFyYxT4PP2vZkoQEGvm2Nsind2nPDuGqu"]

/-- The high water mark constant of the source (`HIGH_WATER_MARK`). -/
def HIGH_WATER_MARK : Nat := 250

/-- The lookup-table resolver boundary
(`lookupTableProvider.getLookupTable`): given a table address, return the
address list stored at it, or `none` when the table is not found. The real
provider fetches the account at the given address, so the resolved table's
`key` field always equals the queried address. -/
abbrev Resolver := Addr → Option (List Addr)

/-- The lookup-resolution loop of the source (lines 53–63):

```
const addressLookupTableAccounts = [];
for (const lookup of txn.message.addressTableLookups) {
  const lut = await lookupTableProvider.getLookupTable(lookup.accountKey);
  if (lut === null) break;
  addressLookupTableAccounts.push(lut);
}
```

Returns the accumulated table list, the trace of resolver calls (queried
addresses, in call order), and whether the loop completed without hitting a
missing table (`false` means a `break` occurred, leaving the accumulated list
partial). -/
def resolveLookups (resolver : Resolver) :
    List AddressTableLookup → List AddressLookupTableAccount × List Addr × Bool
  | [] => ([], [], true)
  | lookup :: rest =>
    match resolver lookup.accountKey with
    | none => ([], [lookup.accountKey], false)
    | some addrs =>
      let r := resolveLookups resolver rest
      (⟨lookup.accountKey, addrs⟩ :: r.1, lookup.accountKey :: r.2.1, r.2.2)

/-- Modelled from the spec: the Account-Key Expander's per-reference step of
`message.getAccountKeys` (a `@solana/web3.js` library call, not part of the
repository sources). For one lookup-table reference, find the resolved table
with the matching address among the supplied tables and select the entries at
the writable and readonly indexes; fail (`none`, an exception in the library)
when the table is absent or an index is out of range. -/
def lookupKeysFor (tables : List AddressLookupTableAccount)
    (l : AddressTableLookup) : Option (List Addr) :=
  match tables.find? (fun t => t.key == l.accountKey) with
  | none => none
  | some t =>
    match l.writableIndexes.mapM (fun i => t.addresses.get? i),
          l.readonlyIndexes.mapM (fun i => t.addresses.get? i) with
    | some ws, some rs => some (ws ++ rs)
    | _, _ => none

/-- Modelled from the spec: the lookup part of the Account-Key Expander — the
keys reached through each lookup-table reference, concatenated in reference
order, failing if any single reference fails to expand. -/
def expandLookups (tables : List AddressLookupTableAccount) :
    List AddressTableLookup → Option (List Addr)
  | [] => some []
  | l :: rest =>
    match lookupKeysFor tables l, expandLookups tables rest with
    | some ks, some ks2 => some (ks ++ ks2)
    | _, _ => none

/-- Modelled from the spec: `message.getAccountKeys({addressLookupTableAccounts})`
followed by `keySegments().flat()` (a `@solana/web3.js` library call, not part
of the repository sources). Produces the full ordered key list — the static
account keys first, then the keys selected through each lookup-table reference
in reference order — or fails (`none`, an exception in the library) when any
referenced table is missing from the supplied list or malformed indexing
occurs. -/
def getAccountKeys (msg : TxMessage)
    (tables : List AddressLookupTableAccount) : Option (List Addr) :=
  match expandLookups tables msg.addressTableLookups with
  | none => none
  | some lookedUp => some (msg.staticAccountKeys ++ lookedUp)

/-- The skip/interest scan of the source (lines 77–96): walk the key list,
returning `(skipTx, accountsOfInterest)`. A key in the skip list sets
`skipTx` and breaks immediately; otherwise a key satisfying the interest
predicate is added to the accumulated set. The JS `Set<string>` preserves
insertion order and ignores duplicate insertions, so it is modelled as a list
extended by `addDistinct`. -/
def addDistinct (acc : List Addr) (k : Addr) : List Addr :=
  if k ∈ acc then acc else acc ++ [k]

/-- See `addDistinct`; this is the loop of source lines 83–96. -/
def scanKeys (skipList : List Addr) (interest : Addr → Bool) :
    List Addr → List Addr → Bool × List Addr
  | acc, [] => (false, acc)
  | acc, key :: rest =>
    if key ∈ skipList then (true, acc)
    else scanKeys skipList interest
      (if interest key then addDistinct acc key else acc) rest

/-- Outcome of processing one transaction inside the generator body. -/
inductive TxOutcome where
  | emit (ft : FilteredTransaction)
  | drop
  | crash
deriving Repr, DecidableEq

/-- The body of the generator for one transaction (source lines 49–122),
given the producer-stamped `mempoolEnd` of the enclosing batch and the value
`now` of `Date.now()` at this iteration.

Faithful to the source: after the lookup loop the (possibly partial) table
list is passed to `getAccountKeys`; if that call throws, the exception is
caught and a warning logged, but `accountKeys` remains `null` and the scan at
line 83 (`accountKeys.keySegments()`) then dereferences `null`, raising an
uncaught `TypeError` that terminates the generator — modelled as
`TxOutcome.crash`. -/
def processTx (resolver : Resolver) (skipList : List Addr)
    (interest : Addr → Bool) (mempoolEnd now : Nat)
    (txn : VersionedTransaction) : TxOutcome :=
  let tables := (resolveLookups resolver txn.message.addressTableLookups).1
  match getAccountKeys txn.message tables with
  | none => TxOutcome.crash
  | some keys =>
    let s := scanKeys skipList interest [] keys
    if s.1 then TxOutcome.drop
    else if s.2.length = 0 then TxOutcome.drop
    else TxOutcome.emit
      { txn := txn
        accountsOfInterest := s.2
        timings :=
          { mempoolEnd := mempoolEnd
            preSimEnd := now
            simEnd := 0
            postSimEnd := 0
            calcArbEnd := 0
            buildBundleEnd := 0
            bundleSent := 0 } }

/-- Result of running the generator over a finite prefix of the producer
stream: either the stream is still healthy (`ok`, with the yielded values in
order), or an uncaught exception terminated it (`crashed`, with the values
yielded before the exception). -/
inductive StreamResult where
  | ok (out : List FilteredTransaction)
  | crashed (out : List FilteredTransaction)
deriving Repr, DecidableEq

/-- The inner transaction loop of the generator (source lines 49–123) over
one batch. `clock step` gives the value of `Date.now()` when the `step`-th
transaction overall is processed; the step counter advances by one per
transaction. A crash discards the rest of the batch and the stream. -/
def processTxns (resolver : Resolver) (skipList : List Addr)
    (interest : Addr → Bool) (clock : Nat → Nat) (mempoolEnd : Nat) :
    Nat → List VersionedTransaction → StreamResult
  | _, [] => StreamResult.ok []
  | step, txn :: rest =>
    match processTx resolver skipList interest mempoolEnd (clock step) txn with
    | TxOutcome.crash => StreamResult.crashed []
    | TxOutcome.drop =>
      processTxns resolver skipList interest clock mempoolEnd (step + 1) rest
    | TxOutcome.emit ft =>
      match processTxns resolver skipList interest clock mempoolEnd
          (step + 1) rest with
      | StreamResult.ok out => StreamResult.ok (ft :: out)
      | StreamResult.crashed out => StreamResult.crashed (ft :: out)

/-- The generator `preSimulationFilter` (source lines 34–125) over a finite
prefix of the producer stream, batch by batch in arrival order. Each batch
contributes its passing transactions in intra-batch order; a crash inside a
batch ends the output stream. -/
def preSimulationFilter (resolver : Resolver) (skipList : List Addr)
    (interest : Addr → Bool) (clock : Nat → Nat) :
    Nat → List MempoolUpdate → StreamResult
  | _, [] => StreamResult.ok []
  | step, u :: rest =>
    match processTxns resolver skipList interest clock u.timings.mempoolEnd
        step u.txns with
    | StreamResult.crashed out => StreamResult.crashed out
    | StreamResult.ok out =>
      match preSimulationFilter resolver skipList interest clock
          (step + u.txns.length) rest with
      | StreamResult.ok out2 => StreamResult.ok (out ++ out2)
      | StreamResult.crashed out2 => StreamResult.crashed (out ++ out2)

/-- Modelled from the spec: the Bounded Relay (`dropBeyondHighWaterMark` of
`utils.ts`, not present in the repository sources). One push onto the buffer
of retained batches with capacity `N`: when the buffer is below capacity the
batch is appended; when it is already at capacity the oldest buffered batch
is discarded and the new batch appended. Returns the new buffer and the
evicted batch, if any. -/
def relayPush {α : Type} (N : Nat) (buf : List α) (x : α) :
    List α × Option α :=
  if buf.length < N then (buf ++ [x], none)
  else
    match buf with
    | [] => ([x], none)
    | y :: rest => (rest ++ [x], some y)

/-- Pushing a sequence of batches through the Bounded Relay with no
consumption in between, accumulating the evicted batches in eviction order.
Returns the final buffer and the evicted batches. -/
def relayPushAll {α : Type} (N : Nat) :
    List α → List α → List α → List α × List α
  | buf, evicted, [] => (buf, evicted)
  | buf, evicted, x :: xs =>
    let p := relayPush N buf x
    relayPushAll N p.1 (evicted ++ p.2.toList) xs

/-- The first-seen deduplication of a list: keeps the first occurrence of
each element, in order of first occurrence. Used to state what the JS
`Set<string>` insertion order yields. -/
def firstSeen : List Addr → List Addr
  | [] => []
  | k :: rest => k :: firstSeen (rest.filter (fun x => x ≠ k))
termination_by l => l.length
decreasing_by
  simp only [List.length_cons]
  exact Nat.lt_succ_of_le (List.length_filter_le _ _)

/-- The resolver-call trace the specification's wording predicts once
corrected: one call per lookup-table reference occurrence, in list order,
stopping immediately after the first call that returns `NotFound`. -/
def callTrace (resolver : Resolver) : List Addr → List Addr
  | [] => []
  | k :: ks =>
    match resolver k with
    | none => [k]
    | some _ => k :: callTrace resolver ks

/-! ## Concrete instances used by the closed theorems and witnesses below -/

/-- Interest predicate for concrete instances: exactly `AoI` matches. -/
def interestEx : Addr → Bool := fun k => k == "AoI"

/-- Interest predicate true exactly on `B`. -/
def interestB : Addr → Bool := fun k => k == "B"

/-- Interest predicate true exactly on `B` and `C`. -/
def interestBC : Addr → Bool := fun k => k == "B" || k == "C"

/-- A resolver with no tables at all. -/
def resolverNone : Resolver := fun _ => none

/-- A resolver knowing exactly the one-entry table `T0`. -/
def resolverT0 : Resolver := fun a => if a == "T0" then some ["L0"] else none

/-- A resolver knowing exactly the one-entry table `T2`. -/
def resolverT2 : Resolver := fun a => if a == "T2" then some ["X0"] else none

/-- A resolver knowing exactly the one-entry table `LUTA`. -/
def resolverLUT : Resolver := fun a => if a == "LUTA" then some ["K1"] else none

/-- A transaction referencing the single unresolvable table `T1`. -/
def txLookupMissing : VersionedTransaction :=
  ⟨⟨["S1"], [⟨"T1", [0], []⟩]⟩⟩

/-- A plain transaction with one static account of interest. -/
def txGoodEx : VersionedTransaction := ⟨⟨["AoI"], []⟩⟩

/-- A transaction whose first table `T0` resolves and whose second table `T1`
does not: the lookup loop breaks, leaving a partially-resolved table list. -/
def txHalfResolved : VersionedTransaction :=
  ⟨⟨["S1"], [⟨"T0", [0], []⟩, ⟨"T1", [0], []⟩]⟩⟩

/-- A transaction whose table `T2` resolves but whose writable index 5 is out
of range for the one-entry table: key-list construction itself fails. -/
def txMalformed : VersionedTransaction :=
  ⟨⟨["S2"], [⟨"T2", [5], []⟩]⟩⟩

/-- A transaction containing the skip-listed address and an account of
interest. -/
def txSkipEx : VersionedTransaction :=
  ⟨⟨["882DFRCi5akKFyYxT4PP2vZkoQEGvm2Nsind2nPDuGqu", "AoI"], []⟩⟩

/-- A transaction whose static keys contain a duplicated account of
interest. -/
def txDupEx : VersionedTransaction := ⟨⟨["A", "B", "B"], []⟩⟩

/-- A transaction whose matching keys `B` and `C` appear interleaved with a
non-matching key and a duplicate. -/
def txOrderEx : VersionedTransaction := ⟨⟨["B", "A", "B", "C"], []⟩⟩

/-- A transaction with only static keys and one account of interest. -/
def txStaticEx : VersionedTransaction := ⟨⟨["S1", "AoI"], []⟩⟩

/-- A batch with the unresolvable-lookup transaction first and a passing
transaction after it. -/
def updMissing : MempoolUpdate :=
  ⟨[txLookupMissing, txGoodEx], ⟨50, 0, 0, 0, 0, 0, 0⟩⟩

/-- A batch holding only the malformed transaction. -/
def updMalformed : MempoolUpdate := ⟨[txMalformed], ⟨60, 0, 0, 0, 0, 0, 0⟩⟩

/-- A batch holding only a passing transaction. -/
def updGood : MempoolUpdate := ⟨[txGoodEx], ⟨70, 0, 0, 0, 0, 0, 0⟩⟩

/-- A batch holding only the first-seen-order transaction. -/
def updOrder : MempoolUpdate := ⟨[txOrderEx], ⟨40, 0, 0, 0, 0, 0, 0⟩⟩

/-- Lookup references with a duplicated resolvable table (`LUTA` twice)
followed by two unresolvable tables (`LUTB`, `LUTC`). -/
def refsLUT : List AddressTableLookup :=
  [⟨"LUTA", [0], []⟩, ⟨"LUTA", [0], []⟩, ⟨"LUTB", [], []⟩, ⟨"LUTC", [], []⟩]

/-- The record `preSimulationFilter` emits for `txGoodEx` in a batch stamped
`mempoolEnd = 50` when the clock reads 100. -/
def ftGoodEx : FilteredTransaction :=
  { txn := txGoodEx
    accountsOfInterest := ["AoI"]
    timings := ⟨50, 100, 0, 0, 0, 0, 0⟩ }

/-- The record `preSimulationFilter` emits for `txGoodEx` in a batch stamped
`mempoolEnd = 70` when the clock reads 100. -/
def ftGoodLate : FilteredTransaction :=
  { txn := txGoodEx
    accountsOfInterest := ["AoI"]
    timings := ⟨70, 100, 0, 0, 0, 0, 0⟩ }

/-- The record `preSimulationFilter` emits for `txOrderEx` in a batch stamped
`mempoolEnd = 40` when the clock reads 100. -/
def ftOrderEx : FilteredTransaction :=
  { txn := txOrderEx
    accountsOfInterest := ["B", "C"]
    timings := ⟨40, 100, 0, 0, 0, 0, 0⟩ }

/-- Total number of transactions in a list of batches. -/
def totalTxns (us : List MempoolUpdate) : Nat :=
  (us.map (fun u => u.txns.length)).sum

/-- Stated from the spec's emission-order wording: the records a batch's
transactions emit, in the batch's transaction order — the `i`-th transaction
contributes its emitted record when `processTx` emits for it and nothing when
it is dropped, with no reordering. Used to characterise the output of the
inner transaction loop on batches that may contain drops. -/
def inOrderEmits (resolver : Resolver) (skipList : List Addr)
    (interest : Addr → Bool) (clock : Nat → Nat) (mempoolEnd step : Nat)
    (txns : List VersionedTransaction) : List FilteredTransaction :=
  (List.range txns.length).filterMap (fun i =>
    (txns.get? i).bind (fun t =>
      match processTx resolver skipList interest mempoolEnd
          (clock (step + i)) t with
      | TxOutcome.emit ft => some ft
      | TxOutcome.drop => none
      | TxOutcome.crash => none))

/-! ## Helper lemmas about the accumulated set of accounts of interest -/

theorem mem_addDistinct {acc : List Addr} {x k : Addr} :
    k ∈ addDistinct acc x ↔ k ∈ acc ∨ k = x := by
  unfold addDistinct
  split
  · rename_i hx
    constructor
    · exact fun h => Or.inl h
    · rintro (h | h)
      · exact h
      · exact h ▸ hx
  · simp

theorem nodup_addDistinct {acc : List Addr} {x : Addr} (h : acc.Nodup) :
    (addDistinct acc x).Nodup := by
  unfold addDistinct
  split
  · exact h
  · rename_i hx
    simp [List.nodup_append, h, hx]

theorem mem_foldl_addDistinct (l : List Addr) :
    ∀ (acc : List Addr) (k : Addr),
      k ∈ l.foldl addDistinct acc ↔ k ∈ acc ∨ k ∈ l := by
  induction l with
  | nil => simp
  | cons x rest ih =>
    intro acc k
    simp only [List.foldl_cons, ih, mem_addDistinct, List.mem_cons]
    tauto

theorem nodup_foldl_addDistinct (l : List Addr) :
    ∀ acc : List Addr, acc.Nodup → (l.foldl addDistinct acc).Nodup := by
  induction l with
  | nil => exact fun _ h => h
  | cons x rest ih =>
    intro acc h
    exact ih _ (nodup_addDistinct h)

theorem foldl_addDistinct_append (l : List Addr) :
    ∀ acc : List Addr,
      l.foldl addDistinct acc
        = acc ++ firstSeen (l.filter (fun x => decide (x ∉ acc))) := by
  induction l with
  | nil => intro acc; simp [firstSeen]
  | cons x rest ih =>
    intro acc
    by_cases hx : x ∈ acc
    · have hstep : addDistinct acc x = acc := by simp [addDistinct, hx]
      simp only [List.foldl_cons, hstep, ih acc, List.filter_cons, hx,
        not_true_eq_false, decide_False, Bool.false_eq_true, if_false]
    · have hstep : addDistinct acc x = acc ++ [x] := by simp [addDistinct, hx]
      have hfilter :
          rest.filter (fun y => decide (y ∉ acc ++ [x]))
            = (rest.filter (fun y => decide (y ∉ acc))).filter
                (fun y => decide (y ≠ x)) := by
        rw [List.filter_filter]
        apply List.filter_congr
        intro y _
        by_cases h1 : y ∈ acc <;> by_cases h2 : y = x <;>
          simp [h1, h2]
      simp only [List.foldl_cons, hstep, ih (acc ++ [x]), List.filter_cons,
        hx, not_false_eq_true, decide_True, if_true, firstSeen, hfilter,
        List.append_assoc, List.singleton_append]

theorem foldl_addDistinct_eq_firstSeen (l : List Addr) :
    l.foldl addDistinct [] = firstSeen l := by
  have h := foldl_addDistinct_append l []
  simpa using h

/-! ## Helper lemmas about the skip/interest scan -/

theorem scanKeys_no_skip (skipList : List Addr) (interest : Addr → Bool)
    (keys : List Addr) :
    ∀ acc, (∀ k ∈ keys, k ∉ skipList) →
      scanKeys skipList interest acc keys
        = (false, (keys.filter interest).foldl addDistinct acc) := by
  induction keys with
  | nil => intro acc _; rfl
  | cons key rest ih =>
    intro acc h
    have hk : key ∉ skipList := h key (List.mem_cons_self _ _)
    have hrest : ∀ k ∈ rest, k ∉ skipList :=
      fun k hm => h k (List.mem_cons_of_mem _ hm)
    simp only [scanKeys, if_neg hk, List.filter_cons]
    cases hint : interest key with
    | true =>
      simp only [if_true, ih _ hrest, List.foldl_cons]
    | false =>
      simp only [Bool.false_eq_true, if_false, ih _ hrest]

theorem scanKeys_fst_false (skipList : List Addr) (interest : Addr → Bool)
    (keys : List Addr) :
    ∀ acc, (scanKeys skipList interest acc keys).1 = false →
      ∀ k ∈ keys, k ∉ skipList := by
  induction keys with
  | nil => intro acc _ k hk; simp at hk
  | cons key rest ih =>
    intro acc h k hk
    by_cases hkey : key ∈ skipList
    · simp [scanKeys, if_pos hkey] at h
    · rcases List.mem_cons.mp hk with h1 | h2
      · exact h1 ▸ hkey
      · simp only [scanKeys, if_neg hkey] at h
        exact ih _ h k h2

theorem scanKeys_skip_of_mem (skipList : List Addr) (interest : Addr → Bool)
    (keys : List Addr) (bad : Addr) :
    ∀ acc, bad ∈ keys → bad ∈ skipList →
      (scanKeys skipList interest acc keys).1 = true := by
  induction keys with
  | nil => intro acc h _; simp at h
  | cons key rest ih =>
    intro acc hmem hskip
    by_cases hkey : key ∈ skipList
    · simp [scanKeys, if_pos hkey]
    · have hbad : bad ∈ rest := by
        rcases List.mem_cons.mp hmem with h1 | h2
        · exact absurd (h1 ▸ hskip) hkey
        · exact h2
      simp only [scanKeys, if_neg hkey]
      exact ih _ hbad hskip

theorem scanKeys_shortcircuit (skipList : List Addr) (interest : Addr → Bool)
    (bad : Addr) (hskip : bad ∈ skipList) (pre : List Addr) :
    ∀ acc post, scanKeys skipList interest acc (pre ++ bad :: post)
      = scanKeys skipList interest acc (pre ++ [bad]) := by
  induction pre with
  | nil =>
    intro acc post
    simp [scanKeys, if_pos hskip]
  | cons key rest ih =>
    intro acc post
    by_cases hkey : key ∈ skipList
    · simp [scanKeys, if_pos hkey]
    · simp only [List.cons_append, scanKeys, if_neg hkey]
      exact ih _ post

/-! ## Helper lemmas about lookup resolution and key expansion -/

theorem resolveLookups_tables (resolver : Resolver)
    (refs : List AddressTableLookup) :
    ∀ t ∈ (resolveLookups resolver refs).1,
      resolver t.key = some t.addresses := by
  induction refs with
  | nil => intro t ht; simp [resolveLookups] at ht
  | cons l rest ih =>
    intro t ht
    simp only [resolveLookups] at ht
    cases hr : resolver l.accountKey with
    | none => rw [hr] at ht; simp at ht
    | some addrs =>
      rw [hr] at ht
      simp only [List.mem_cons] at ht
      rcases ht with h1 | h2
      · subst h1; exact hr
      · exact ih t h2

theorem resolveLookups_ok_false (resolver : Resolver)
    (refs : List AddressTableLookup) :
    (resolveLookups resolver refs).2.2 = false →
      ∃ l ∈ refs, resolver l.accountKey = none := by
  induction refs with
  | nil => intro h; simp [resolveLookups] at h
  | cons l rest ih =>
    intro h
    simp only [resolveLookups] at h
    cases hr : resolver l.accountKey with
    | none => exact ⟨l, List.mem_cons_self _ _, hr⟩
    | some addrs =>
      rw [hr] at h
      obtain ⟨l2, hm, hn⟩ := ih h
      exact ⟨l2, List.mem_cons_of_mem _ hm, hn⟩

theorem expandLookups_none_of_mem (tables : List AddressLookupTableAccount)
    (refs : List AddressTableLookup) (l : AddressTableLookup)
    (hm : l ∈ refs) (hn : lookupKeysFor tables l = none) :
    expandLookups tables refs = none := by
  induction refs with
  | nil => simp at hm
  | cons l2 rest ih =>
    rcases List.mem_cons.mp hm with h1 | h2
    · subst h1
      simp [expandLookups, hn]
    · simp only [expandLookups, ih h2]
      cases lookupKeysFor tables l2 <;> rfl

/-- If the lookup loop broke on a missing table, the subsequent
`getAccountKeys` call on the partially accumulated table list always fails:
the reference the loop broke on is not among the accumulated tables, because
every accumulated table resolved successfully and the resolver is a
function. -/
theorem getAccountKeys_none_of_break (resolver : Resolver)
    (msg : TxMessage)
    (h : (resolveLookups resolver msg.addressTableLookups).2.2 = false) :
    getAccountKeys msg (resolveLookups resolver msg.addressTableLookups).1
      = none := by
  obtain ⟨l, hm, hn⟩ := resolveLookups_ok_false resolver _ h
  have hfind :
      (resolveLookups resolver msg.addressTableLookups).1.find?
        (fun t => t.key == l.accountKey) = none := by
    rw [List.find?_eq_none]
    intro t ht
    have := resolveLookups_tables resolver _ t ht
    simp only [beq_iff_eq]
    intro heq
    rw [heq, hn] at this
    exact Option.noConfusion this
  have hlk : lookupKeysFor (resolveLookups resolver msg.addressTableLookups).1
      l = none := by
    simp [lookupKeysFor, hfind]
  unfold getAccountKeys
  rw [expandLookups_none_of_mem _ _ l hm hlk]

/-- An `emit` outcome decomposed: the key list expanded successfully, the
scan found no skip-listed key, the accumulated set is non-empty, and the
emitted record is built exactly as in source lines 110–122. -/
theorem processTx_emit (resolver : Resolver) (skipList : List Addr)
    (interest : Addr → Bool) (mempoolEnd now : Nat)
    (txn : VersionedTransaction) (ft : FilteredTransaction)
    (h : processTx resolver skipList interest mempoolEnd now txn
      = TxOutcome.emit ft) :
    ∃ keys,
      getAccountKeys txn.message
        (resolveLookups resolver txn.message.addressTableLookups).1
        = some keys ∧
      (scanKeys skipList interest [] keys).1 = false ∧
      (scanKeys skipList interest [] keys).2 ≠ [] ∧
      ft = { txn := txn
             accountsOfInterest := (scanKeys skipList interest [] keys).2
             timings :=
               { mempoolEnd := mempoolEnd
                 preSimEnd := now
                 simEnd := 0
                 postSimEnd := 0
                 calcArbEnd := 0
                 buildBundleEnd := 0
                 bundleSent := 0 } } := by
  simp only [processTx] at h
  split at h
  · exact absurd h (by simp)
  · rename_i keys hg
    split at h
    · exact absurd h (by simp)
    · rename_i h1
      split at h
      · exact absurd h (by simp)
      · rename_i h2
        refine ⟨keys, hg, ?_, ?_, ?_⟩
        · simpa using h1
        · intro hnil
          exact h2 (by rw [hnil]; rfl)
        · cases h
          rfl

/-! ## Helper lemmas about the Bounded Relay and the generator loops -/

theorem relayPushAll_spec {α : Type} (N : Nat) (hN : 0 < N) (xs : List α) :
    ∀ (buf evicted : List α), buf.length ≤ N →
      relayPushAll N buf evicted xs
        = ((buf ++ xs).drop (buf.length + xs.length - N),
           evicted ++ (buf ++ xs).take (buf.length + xs.length - N)) := by
  induction xs with
  | nil =>
    intro buf evicted hlen
    have h0 : buf.length - N = 0 := by omega
    simp [relayPushAll, h0]
  | cons x rest ih =>
    intro buf evicted hlen
    by_cases hcap : buf.length < N
    · have hlen2 : (buf ++ [x]).length ≤ N := by
        simp only [List.length_append, List.length_cons, List.length_nil]
        omega
      have hpush : relayPush N buf x = (buf ++ [x], none) := by
        simp [relayPush, if_pos hcap]
      have harith : (buf ++ [x]).length + rest.length - N
          = buf.length + (x :: rest).length - N := by
        simp only [List.length_append, List.length_cons, List.length_nil]
        omega
      have happ : (buf ++ [x]) ++ rest = buf ++ x :: rest := by simp
      simp only [relayPushAll, hpush, Option.toList, List.append_nil]
      rw [ih (buf ++ [x]) evicted hlen2, harith, happ]
    · have heq : buf.length = N := by omega
      cases buf with
      | nil =>
        exfalso
        simp only [List.length_nil] at heq
        omega
      | cons y b =>
        have hblen : b.length + 1 = N := by simpa using heq
        have hpush : relayPush N (y :: b) x = (b ++ [x], some y) := by
          unfold relayPush
          rw [if_neg hcap]
        have hlen2 : (b ++ [x]).length ≤ N := by
          simp only [List.length_append, List.length_cons, List.length_nil]
          omega
        have i1 : (b ++ [x]).length + rest.length - N = rest.length := by
          simp only [List.length_append, List.length_cons, List.length_nil]
          omega
        have i2 : (y :: b).length + (x :: rest).length - N
            = rest.length + 1 := by
          simp only [List.length_cons]
          omega
        have happ : (b ++ [x]) ++ rest = b ++ x :: rest := by simp
        simp only [relayPushAll, hpush, Option.toList]
        rw [ih (b ++ [x]) (evicted ++ [y]) hlen2, i1, i2, happ]
        simp only [List.cons_append, List.drop_succ_cons,
          List.take_succ_cons, List.append_assoc, List.singleton_append,
          List.nil_append]

theorem processTxns_all_emit (resolver : Resolver) (skipList : List Addr)
    (interest : Addr → Bool) (clock : Nat → Nat) (mempoolEnd : Nat)
    (txns : List VersionedTransaction) :
    ∀ step,
      (∀ i (hi : i < txns.length), ∃ ft,
        processTx resolver skipList interest mempoolEnd (clock (step + i))
          (txns.get ⟨i, hi⟩) = TxOutcome.emit ft) →
      ∃ out,
        processTxns resolver skipList interest clock mempoolEnd step txns
          = StreamResult.ok out ∧
        out.map FilteredTransaction.txn = txns := by
  induction txns with
  | nil => intro step _; exact ⟨[], rfl, rfl⟩
  | cons t rest ih =>
    intro step hall
    obtain ⟨ft, hft⟩ := hall 0 (by simp)
    have hft0 : processTx resolver skipList interest mempoolEnd (clock step) t
        = TxOutcome.emit ft := by
      simpa using hft
    have hrest : ∀ i (hi : i < rest.length), ∃ ft2,
        processTx resolver skipList interest mempoolEnd
          (clock (step + 1 + i)) (rest.get ⟨i, hi⟩) = TxOutcome.emit ft2 := by
      intro i hi
      have h := hall (i + 1) (by simpa using Nat.succ_lt_succ hi)
      have harith : step + (i + 1) = step + 1 + i := by omega
      rw [harith] at h
      simpa using h
    obtain ⟨out, hout, hmap⟩ := ih (step + 1) hrest
    have htxn : ft.txn = t := by
      obtain ⟨keys, _, _, _, hfteq⟩ :=
        processTx_emit _ _ _ _ _ _ _ hft0
      rw [hfteq]
    refine ⟨ft :: out, ?_, ?_⟩
    · simp only [processTxns, hft0, hout]
    · simp [hmap, htxn]

theorem preSimulationFilter_append (resolver : Resolver) (skipList : List Addr)
    (interest : Addr → Bool) (clock : Nat → Nat)
    (us1 us2 : List MempoolUpdate) :
    ∀ step o1,
      preSimulationFilter resolver skipList interest clock step us1
        = StreamResult.ok o1 →
      preSimulationFilter resolver skipList interest clock step (us1 ++ us2)
        = match preSimulationFilter resolver skipList interest clock
            (step + totalTxns us1) us2 with
          | StreamResult.ok o2 => StreamResult.ok (o1 ++ o2)
          | StreamResult.crashed o2 => StreamResult.crashed (o1 ++ o2) := by
  induction us1 with
  | nil =>
    intro step o1 h
    have h1 : o1 = [] := by
      simpa [preSimulationFilter] using h.symm
    subst h1
    simp only [List.nil_append, totalTxns, List.map_nil, List.sum_nil,
      Nat.add_zero]
    cases preSimulationFilter resolver skipList interest clock step us2 <;> simp
  | cons u rest ih =>
    intro step o1 h
    simp only [preSimulationFilter] at h
    cases hb : processTxns resolver skipList interest clock
        u.timings.mempoolEnd step u.txns with
    | crashed ob => rw [hb] at h; exact absurd h (by simp)
    | ok ob =>
      rw [hb] at h
      cases hr : preSimulationFilter resolver skipList interest clock
          (step + u.txns.length) rest with
      | crashed o2 => rw [hr] at h; exact absurd h (by simp)
      | ok o2 =>
        rw [hr] at h
        have ho1 : o1 = ob ++ o2 := by
          have := h
          simp at this
          exact this.symm
        subst ho1
        have htot : step + totalTxns (u :: rest)
            = step + u.txns.length + totalTxns rest := by
          simp only [totalTxns, List.map_cons, List.sum_cons]
          omega
        simp only [List.cons_append, preSimulationFilter, hb, List.append_eq]
        rw [ih (step + u.txns.length) o2 hr, htot]
        cases preSimulationFilter resolver skipList interest clock
            (step + u.txns.length + totalTxns rest) us2 <;> simp

theorem inOrderEmits_nil (resolver : Resolver) (skipList : List Addr)
    (interest : Addr → Bool) (clock : Nat → Nat) (mempoolEnd step : Nat) :
    inOrderEmits resolver skipList interest clock mempoolEnd step [] = [] :=
  rfl

theorem inOrderEmits_cons (resolver : Resolver) (skipList : List Addr)
    (interest : Addr → Bool) (clock : Nat → Nat) (mempoolEnd step : Nat)
    (t : VersionedTransaction) (rest : List VersionedTransaction) :
    inOrderEmits resolver skipList interest clock mempoolEnd step (t :: rest)
      = match processTx resolver skipList interest mempoolEnd
            (clock step) t with
        | TxOutcome.emit ft =>
            ft :: inOrderEmits resolver skipList interest clock mempoolEnd
              (step + 1) rest
        | TxOutcome.drop =>
            inOrderEmits resolver skipList interest clock mempoolEnd
              (step + 1) rest
        | TxOutcome.crash =>
            inOrderEmits resolver skipList interest clock mempoolEnd
              (step + 1) rest := by
  unfold inOrderEmits
  rw [List.length_cons, List.range_succ_eq_map, List.filterMap_cons,
    List.filterMap_map]
  have hfun : ((fun i => ((t :: rest).get? i).bind (fun t2 =>
        match processTx resolver skipList interest mempoolEnd
            (clock (step + i)) t2 with
        | TxOutcome.emit ft => some ft
        | TxOutcome.drop => none
        | TxOutcome.crash => none)) ∘ Nat.succ)
      = (fun i => (rest.get? i).bind (fun t2 =>
        match processTx resolver skipList interest mempoolEnd
            (clock (step + 1 + i)) t2 with
        | TxOutcome.emit ft => some ft
        | TxOutcome.drop => none
        | TxOutcome.crash => none)) := by
    funext i
    have harith : step + Nat.succ i = step + 1 + i := by omega
    simp only [Function.comp_apply, List.get?_cons_succ, harith]
  rw [hfun]
  simp only [List.get?_cons_zero, Option.some_bind, Nat.add_zero]
  cases processTx resolver skipList interest mempoolEnd (clock step) t <;> rfl

/-- A batch's loop output, when the batch does not crash the generator, is
exactly the in-order emission list of its transactions: dropped transactions
are omitted and the emitted records keep the batch's transaction order, with
no reordering — no all-pass hypothesis. -/
theorem processTxns_ok_in_order (resolver : Resolver) (skipList : List Addr)
    (interest : Addr → Bool) (clock : Nat → Nat) (mempoolEnd : Nat)
    (txns : List VersionedTransaction) :
    ∀ (step : Nat) (out : List FilteredTransaction),
      processTxns resolver skipList interest clock mempoolEnd step txns
        = StreamResult.ok out →
      out = inOrderEmits resolver skipList interest clock mempoolEnd step
        txns := by
  induction txns with
  | nil =>
    intro step out h
    have h0 : out = [] := by simpa [processTxns] using h.symm
    subst h0
    rfl
  | cons t rest ih =>
    intro step out h
    simp only [processTxns] at h
    cases hp : processTx resolver skipList interest mempoolEnd
        (clock step) t with
    | crash =>
      rw [hp] at h
      exact absurd h (by simp)
    | drop =>
      rw [hp] at h
      rw [inOrderEmits_cons]
      simp only [hp]
      exact ih (step + 1) out h
    | emit ft =>
      rw [hp] at h
      cases hr : processTxns resolver skipList interest clock mempoolEnd
          (step + 1) rest with
      | crashed o2 =>
        rw [hr] at h
        exact absurd h (by simp)
      | ok o2 =>
        rw [hr] at h
        have hout : out = ft :: o2 := by simpa using h.symm
        subst hout
        rw [inOrderEmits_cons]
        simp only [hp]
        rw [ih (step + 1) o2 hr]

/-! ## The claims -/

/-- Claim C1 (code bug): the specification requires that a `NotFound`
lookup-table result make key expansion stop and fail for that transaction
only, with no partially-resolved table list ever used and the failure never
propagating beyond the transaction. The code instead `break`s out of the
lookup loop, passes the partially-resolved table list to `getAccountKeys`,
and — after catching the resulting exception — dereferences the still-`null`
key list, raising an uncaught `TypeError` that terminates the whole stream.
Concretely: for a transaction whose first table resolves and whose second
does not, the non-empty partial table list is what `getAccountKeys` receives
and the transaction crashes; and a batch holding an unresolvable-lookup
transaction followed by a passing transaction yields a crashed stream with
nothing emitted, although the second transaction alone would emit. -/
theorem notfound_not_contained :
    (resolveLookups resolverT0 txHalfResolved.message.addressTableLookups).1
      = [⟨"T0", ["L0"]⟩] ∧
    processTx resolverT0 SKIP_TX_IF_CONTAINS_ADDRESS interestEx 50 100
      txHalfResolved = TxOutcome.crash ∧
    preSimulationFilter resolverNone SKIP_TX_IF_CONTAINS_ADDRESS interestEx
      (fun _ => 100) 0 [updMissing] = StreamResult.crashed [] ∧
    processTx resolverNone SKIP_TX_IF_CONTAINS_ADDRESS interestEx 50 100
      txGoodEx = TxOutcome.emit ftGoodEx := by
  refine ⟨rfl, rfl, rfl, rfl⟩

/-- Claim C2 (code bug): the specification requires that a transaction whose
key-list construction fails be logged and skipped, processing continuing with
the next transaction, the scan never running on an absent key list. In the
code the catch block logs the warning but leaves `accountKeys` at `null`, and
the scan then dereferences it: the generator throws and the stream ends.
Concretely: a transaction whose table resolves but whose writable index is
out of range crashes the stream, and a passing transaction in the following
batch — which on its own yields an emitted record — is never emitted. -/
theorem expansion_failure_not_contained :
    processTx resolverT2 SKIP_TX_IF_CONTAINS_ADDRESS interestEx 60 100
      txMalformed = TxOutcome.crash ∧
    preSimulationFilter resolverT2 SKIP_TX_IF_CONTAINS_ADDRESS interestEx
      (fun _ => 100) 0 [updMalformed, updGood] = StreamResult.crashed [] ∧
    preSimulationFilter resolverT2 SKIP_TX_IF_CONTAINS_ADDRESS interestEx
      (fun _ => 100) 0 [updGood] = StreamResult.ok [ftGoodLate] := by
  refine ⟨rfl, rfl, rfl⟩

/-- Claim C3: a transaction whose expanded key list contains a skip-listed
address is dropped — no record is emitted even when other keys are of
interest — and the scan short-circuits at the first skip-listed key: its
result does not depend on the keys after that one. -/
theorem skip_list_veto (resolver : Resolver) (skipList : List Addr)
    (interest : Addr → Bool) (mempoolEnd now : Nat)
    (txn : VersionedTransaction) (pre post : List Addr) (bad : Addr)
    (hkeys : getAccountKeys txn.message
        (resolveLookups resolver txn.message.addressTableLookups).1
      = some (pre ++ bad :: post))
    (hskip : bad ∈ skipList) :
    processTx resolver skipList interest mempoolEnd now txn
      = TxOutcome.drop ∧
    ∀ acc post2, scanKeys skipList interest acc (pre ++ bad :: post2)
      = scanKeys skipList interest acc (pre ++ [bad]) := by
  constructor
  · have hmem : bad ∈ pre ++ bad :: post :=
      List.mem_append_right _ (List.mem_cons_self _ _)
    have h1 := scanKeys_skip_of_mem skipList interest (pre ++ bad :: post)
      bad [] hmem hskip
    simp [processTx, hkeys, h1]
  · intro acc post2
    exact scanKeys_shortcircuit skipList interest bad hskip pre acc post2

/-- Witness for claim C3: a concrete transaction whose key list is the
skip-listed address followed by an account of interest is dropped, and the
scan result is independent of everything after the skip-listed key. -/
theorem skip_list_veto_witness :
    processTx resolverNone SKIP_TX_IF_CONTAINS_ADDRESS interestEx 5 9 txSkipEx
      = TxOutcome.drop ∧
    ∀ acc post2,
      scanKeys SKIP_TX_IF_CONTAINS_ADDRESS interestEx acc
        ([] ++ "882DFRCi5akKFyYxT4PP2vZkoQEGvm2Nsind2nPDuGqu" :: post2)
      = scanKeys SKIP_TX_IF_CONTAINS_ADDRESS interestEx acc
        ([] ++ ["882DFRCi5akKFyYxT4PP2vZkoQEGvm2Nsind2nPDuGqu"]) :=
  skip_list_veto resolverNone SKIP_TX_IF_CONTAINS_ADDRESS interestEx 5 9
    txSkipEx [] ["AoI"] "882DFRCi5akKFyYxT4PP2vZkoQEGvm2Nsind2nPDuGqu"
    rfl (by decide)

/-- Claim C4: with no skip-listed key in the expanded list, the transaction
is dropped when no key is of interest, and otherwise a record is emitted
whose matched set is exactly the distinct keys of interest of the list
(duplicates collapsed, set non-empty). -/
theorem relevance_filter_matched_set (resolver : Resolver)
    (skipList : List Addr) (interest : Addr → Bool) (mempoolEnd now : Nat)
    (txn : VersionedTransaction) (keys : List Addr)
    (hkeys : getAccountKeys txn.message
        (resolveLookups resolver txn.message.addressTableLookups).1
      = some keys)
    (hnoskip : ∀ k ∈ keys, k ∉ skipList) :
    (keys.filter interest = [] →
      processTx resolver skipList interest mempoolEnd now txn
        = TxOutcome.drop) ∧
    (keys.filter interest ≠ [] →
      ∃ ft, processTx resolver skipList interest mempoolEnd now txn
          = TxOutcome.emit ft ∧
        (∀ k, k ∈ ft.accountsOfInterest ↔ (k ∈ keys ∧ interest k = true)) ∧
        ft.accountsOfInterest.Nodup ∧
        ft.accountsOfInterest ≠ []) := by
  have hscan := scanKeys_no_skip skipList interest keys [] hnoskip
  constructor
  · intro hempty
    simp [processTx, hkeys, hscan, hempty]
  · intro hne
    have hmemA : ∀ k, k ∈ (keys.filter interest).foldl addDistinct []
        ↔ (k ∈ keys ∧ interest k = true) := by
      intro k
      rw [mem_foldl_addDistinct]
      simp [List.mem_filter]
    have hnodup : ((keys.filter interest).foldl addDistinct []).Nodup :=
      nodup_foldl_addDistinct _ [] List.nodup_nil
    have hnonnil : (keys.filter interest).foldl addDistinct [] ≠ [] := by
      obtain ⟨k, hk⟩ := List.exists_mem_of_ne_nil _ hne
      intro h0
      have hkmem : k ∈ (keys.filter interest).foldl addDistinct [] :=
        (mem_foldl_addDistinct _ [] k).mpr (Or.inr hk)
      rw [h0] at hkmem
      simp at hkmem
    have hlen :
        ¬ (((keys.filter interest).foldl addDistinct []).length = 0) := by
      intro h0
      exact hnonnil (List.length_eq_zero.mp h0)
    refine ⟨⟨txn, (keys.filter interest).foldl addDistinct [],
      ⟨mempoolEnd, now, 0, 0, 0, 0, 0⟩⟩, ?_, hmemA, hnodup, hnonnil⟩
    simp [processTx, hkeys, hscan, hlen]

/-- Witness for claim C4 at the key list `[A, B, B]` with only `B` of
interest: the transaction is emitted with matched set exactly `{B}`. -/
theorem relevance_filter_matched_set_witness :
    ((["A", "B", "B"] : List Addr).filter interestB = [] →
      processTx resolverNone SKIP_TX_IF_CONTAINS_ADDRESS interestB 7 8 txDupEx
        = TxOutcome.drop) ∧
    ((["A", "B", "B"] : List Addr).filter interestB ≠ [] →
      ∃ ft, processTx resolverNone SKIP_TX_IF_CONTAINS_ADDRESS interestB 7 8
          txDupEx = TxOutcome.emit ft ∧
        (∀ k, k ∈ ft.accountsOfInterest
          ↔ (k ∈ (["A", "B", "B"] : List Addr) ∧ interestB k = true)) ∧
        ft.accountsOfInterest.Nodup ∧
        ft.accountsOfInterest ≠ []) :=
  relevance_filter_matched_set resolverNone SKIP_TX_IF_CONTAINS_ADDRESS
    interestB 7 8 txDupEx ["A", "B", "B"] rfl (by decide)

/-- Claim C5 (Bounded Relay, modelled from the spec): with capacity `N > 0`
the buffer never retains more than `N` batches after any push from a
within-capacity state, and pushing `N + k` batches with no consumption
evicts exactly the `k` oldest (in order) and retains the `N` most recent in
their original relative order. -/
theorem bounded_relay_drop_oldest {α : Type} (N k : Nat) (hN : 0 < N)
    (xs : List α) (hlen : xs.length = N + k) :
    relayPushAll N [] [] xs = (xs.drop k, xs.take k) ∧
    ∀ (buf : List α) (x : α), buf.length ≤ N →
      ((relayPush N buf x).1).length ≤ N := by
  constructor
  · have h := relayPushAll_spec N hN xs [] [] (by simp)
    have hk : ([] : List α).length + xs.length - N = k := by
      simp only [List.length_nil, hlen]
      omega
    rw [hk] at h
    simpa using h
  · intro buf x hb
    unfold relayPush
    split
    · rename_i hlt
      simp only [List.length_append, List.length_cons, List.length_nil]
      omega
    · rename_i hge
      cases buf with
      | nil => simpa using hN
      | cons y b =>
        simp only [List.length_append, List.length_cons, List.length_nil]
        simp only [List.length_cons] at hb
        omega

/-- Witness for claim C5: capacity 2, three pushes — the oldest batch is
evicted and the two most recent are retained in order. -/
theorem bounded_relay_drop_oldest_witness :
    relayPushAll 2 ([] : List Nat) [] [10, 20, 30] = ([20, 30], [10]) ∧
    ∀ (buf : List Nat) (x : Nat), buf.length ≤ 2 →
      ((relayPush 2 buf x).1).length ≤ 2 :=
  bounded_relay_drop_oldest 2 1 (by decide) [10, 20, 30] (by decide)

/-- Claim C6: every emitted record copies `mempoolEnd` unchanged from the
batch, sets `preSimEnd` to the clock value at emission (hence
`preSimEnd ≥ mempoolEnd` whenever the clock at emission is not earlier than
the producer's stamp), and leaves all later-stage timing fields at zero. -/
theorem emitted_timing_fields (resolver : Resolver) (skipList : List Addr)
    (interest : Addr → Bool) (mempoolEnd now : Nat)
    (txn : VersionedTransaction) (ft : FilteredTransaction)
    (hemit : processTx resolver skipList interest mempoolEnd now txn
      = TxOutcome.emit ft)
    (hclock : mempoolEnd ≤ now) :
    ft.timings.mempoolEnd = mempoolEnd ∧
    ft.timings.preSimEnd = now ∧
    ft.timings.mempoolEnd ≤ ft.timings.preSimEnd ∧
    ft.timings.simEnd = 0 ∧
    ft.timings.postSimEnd = 0 ∧
    ft.timings.calcArbEnd = 0 ∧
    ft.timings.buildBundleEnd = 0 ∧
    ft.timings.bundleSent = 0 := by
  obtain ⟨keys, hg, h1, h2, hfteq⟩ := processTx_emit _ _ _ _ _ _ _ hemit
  subst hfteq
  exact ⟨rfl, rfl, hclock, rfl, rfl, rfl, rfl, rfl⟩

/-- Witness for claim C6 at the concrete emission of `txGoodEx` from a
batch stamped 50 with the clock at 100. -/
theorem emitted_timing_fields_witness :
    ftGoodEx.timings.mempoolEnd = 50 ∧
    ftGoodEx.timings.preSimEnd = 100 ∧
    ftGoodEx.timings.mempoolEnd ≤ ftGoodEx.timings.preSimEnd ∧
    ftGoodEx.timings.simEnd = 0 ∧
    ftGoodEx.timings.postSimEnd = 0 ∧
    ftGoodEx.timings.calcArbEnd = 0 ∧
    ftGoodEx.timings.buildBundleEnd = 0 ∧
    ftGoodEx.timings.bundleSent = 0 :=
  emitted_timing_fields resolverNone SKIP_TX_IF_CONTAINS_ADDRESS interestEx
    50 100 txGoodEx ftGoodEx rfl (by decide)

/-- Claim C7: emission order is batch arrival order then intra-batch
transaction order, with no reordering. For any batch, with drops allowed,
the loop output is exactly the in-order emission list of its transactions
(dropped transactions omitted, emitted records in transaction order);
batches contribute their outputs by concatenation in arrival order; and for
a single batch in which every transaction passes, the output transactions
equal the input transactions in the same order. -/
theorem emission_order (resolver : Resolver) (skipList : List Addr)
    (interest : Addr → Bool) (clock : Nat → Nat) (u : MempoolUpdate)
    (hall : ∀ i (hi : i < u.txns.length), ∃ ft,
      processTx resolver skipList interest u.timings.mempoolEnd (clock i)
        (u.txns.get ⟨i, hi⟩) = TxOutcome.emit ft) :
    (∀ (mE : Nat) (txns : List VersionedTransaction) (step : Nat)
        (out : List FilteredTransaction),
      processTxns resolver skipList interest clock mE step txns
        = StreamResult.ok out →
      out = inOrderEmits resolver skipList interest clock mE step txns) ∧
    (∃ out,
      preSimulationFilter resolver skipList interest clock 0 [u]
        = StreamResult.ok out ∧
      out.map FilteredTransaction.txn = u.txns) ∧
    (∀ (us1 us2 : List MempoolUpdate) (step : Nat)
        (o1 o2 : List FilteredTransaction),
      preSimulationFilter resolver skipList interest clock step us1
        = StreamResult.ok o1 →
      preSimulationFilter resolver skipList interest clock
        (step + totalTxns us1) us2 = StreamResult.ok o2 →
      preSimulationFilter resolver skipList interest clock step (us1 ++ us2)
        = StreamResult.ok (o1 ++ o2)) := by
  refine ⟨?_, ?_, ?_⟩
  · intro mE txns step out h
    exact processTxns_ok_in_order resolver skipList interest clock mE txns
      step out h
  · have hall0 : ∀ i (hi : i < u.txns.length), ∃ ft,
        processTx resolver skipList interest u.timings.mempoolEnd
          (clock (0 + i)) (u.txns.get ⟨i, hi⟩) = TxOutcome.emit ft := by
      intro i hi
      have h := hall i hi
      rwa [Nat.zero_add]
    obtain ⟨out, hout, hmap⟩ :=
      processTxns_all_emit resolver skipList interest clock
        u.timings.mempoolEnd u.txns 0 hall0
    refine ⟨out, ?_, hmap⟩
    simp [preSimulationFilter, hout]
  · intro us1 us2 step o1 o2 h1 h2
    rw [preSimulationFilter_append resolver skipList interest clock us1 us2
      step o1 h1, h2]

/-- Witness for claim C7: the general in-order-with-drops characterisation
and the concatenation property instantiated at a concrete configuration, and
a one-transaction batch whose transaction passes yields exactly that
transaction. -/
theorem emission_order_witness :
    (∀ (mE : Nat) (txns : List VersionedTransaction) (step : Nat)
        (out : List FilteredTransaction),
      processTxns resolverNone SKIP_TX_IF_CONTAINS_ADDRESS interestBC
        (fun _ => 100) mE step txns = StreamResult.ok out →
      out = inOrderEmits resolverNone SKIP_TX_IF_CONTAINS_ADDRESS interestBC
        (fun _ => 100) mE step txns) ∧
    (∃ out,
      preSimulationFilter resolverNone SKIP_TX_IF_CONTAINS_ADDRESS interestBC
        (fun _ => 100) 0 [updOrder] = StreamResult.ok out ∧
      out.map FilteredTransaction.txn = updOrder.txns) ∧
    (∀ (us1 us2 : List MempoolUpdate) (step : Nat)
        (o1 o2 : List FilteredTransaction),
      preSimulationFilter resolverNone SKIP_TX_IF_CONTAINS_ADDRESS interestBC
        (fun _ => 100) step us1 = StreamResult.ok o1 →
      preSimulationFilter resolverNone SKIP_TX_IF_CONTAINS_ADDRESS interestBC
        (fun _ => 100) (step + totalTxns us1) us2 = StreamResult.ok o2 →
      preSimulationFilter resolverNone SKIP_TX_IF_CONTAINS_ADDRESS interestBC
        (fun _ => 100) step (us1 ++ us2) = StreamResult.ok (o1 ++ o2)) :=
  emission_order resolverNone SKIP_TX_IF_CONTAINS_ADDRESS interestBC
    (fun _ => 100) updOrder
    (fun i hi => match i, hi with
      | 0, _ => ⟨ftOrderEx, rfl⟩
      | n + 1, hi => absurd hi (by
          show ¬ (n + 1 < 1)
          omega))

/-- Counterexample to claim C8 as stated: with references
`[LUTA, LUTA, LUTB, LUTC]` where only `LUTA` resolves, the call trace is
`[LUTA, LUTA, LUTB]` — the resolver is called twice for the single distinct
reference `LUTA`, and never for `LUTC` although `LUTC` appears among the
transaction's references, so it is not called exactly once per distinct
reference. -/
theorem resolver_once_per_distinct_cex :
    (resolveLookups resolverLUT refsLUT).2.1 = ["LUTA", "LUTA", "LUTB"] ∧
    ("LUTC" ∈ refsLUT.map AddressTableLookup.accountKey) ∧
    ("LUTC" ∉ (resolveLookups resolverLUT refsLUT).2.1) ∧
    (resolveLookups resolverLUT refsLUT).2.1.count "LUTA" = 2 :=
  ⟨rfl, by decide, by decide, by decide⟩

/-- Claim C8 as amended: the resolver is called once per lookup-table
reference occurrence (a duplicated reference is resolved again), sequentially
in the order the references appear, stopping immediately after the first call
that returns `NotFound`; references after that point are never resolved.
`callTrace` is that call sequence, stated from the amended claim. -/
theorem resolver_call_order (resolver : Resolver)
    (refs : List AddressTableLookup) :
    (resolveLookups resolver refs).2.1
      = callTrace resolver (refs.map AddressTableLookup.accountKey) := by
  induction refs with
  | nil => rfl
  | cons l rest ih =>
    simp only [resolveLookups, List.map_cons, callTrace]
    cases resolver l.accountKey with
    | none => rfl
    | some addrs => simpa using ih

/-- Claim C9: for a transaction with no lookup-table references, the resolver
is never invoked (empty call trace), resolution reports success (the
`NotFound` break cannot occur), the table list passed to key construction is
empty, and the expanded key list is exactly the static account keys. -/
theorem empty_lookups_static_only (resolver : Resolver)
    (txn : VersionedTransaction)
    (h : txn.message.addressTableLookups = []) :
    resolveLookups resolver txn.message.addressTableLookups
      = ([], [], true) ∧
    getAccountKeys txn.message
        (resolveLookups resolver txn.message.addressTableLookups).1
      = some txn.message.staticAccountKeys := by
  rw [h]
  refine ⟨rfl, ?_⟩
  simp [getAccountKeys, resolveLookups, expandLookups, h]

/-- Witness for claim C9 at a transaction with two static keys and no
lookup-table references. -/
theorem empty_lookups_static_only_witness :
    resolveLookups resolverNone txStaticEx.message.addressTableLookups
      = ([], [], true) ∧
    getAccountKeys txStaticEx.message
        (resolveLookups resolverNone
          txStaticEx.message.addressTableLookups).1
      = some txStaticEx.message.staticAccountKeys :=
  empty_lookups_static_only resolverNone txStaticEx rfl

/-- Claim C10: every emitted `accountsOfInterest` list is duplicate-free,
every element satisfies the interest predicate, and the list is exactly the
matching keys of the expanded key list in first-seen order. -/
theorem accounts_of_interest_first_seen (resolver : Resolver)
    (skipList : List Addr) (interest : Addr → Bool) (mempoolEnd now : Nat)
    (txn : VersionedTransaction) (ft : FilteredTransaction)
    (hemit : processTx resolver skipList interest mempoolEnd now txn
      = TxOutcome.emit ft) :
    ft.accountsOfInterest.Nodup ∧
    (∀ k ∈ ft.accountsOfInterest, interest k = true) ∧
    ∃ keys,
      getAccountKeys txn.message
          (resolveLookups resolver txn.message.addressTableLookups).1
        = some keys ∧
      ft.accountsOfInterest = firstSeen (keys.filter interest) := by
  obtain ⟨keys, hg, hfalse, hne, hfteq⟩ :=
    processTx_emit _ _ _ _ _ _ _ hemit
  have hnoskip := scanKeys_fst_false skipList interest keys [] hfalse
  have hscan := scanKeys_no_skip skipList interest keys [] hnoskip
  have haoi : ft.accountsOfInterest
      = (keys.filter interest).foldl addDistinct [] := by
    rw [hfteq]
    simp [hscan]
  refine ⟨?_, ?_, keys, hg, ?_⟩
  · rw [haoi]
    exact nodup_foldl_addDistinct _ [] List.nodup_nil
  · intro k hk
    rw [haoi] at hk
    rcases (mem_foldl_addDistinct _ [] k).mp hk with h1 | h2
    · simp at h1
    · exact (List.mem_filter.mp h2).2
  · rw [haoi, foldl_addDistinct_eq_firstSeen]

/-- Witness for claim C10 at the emission of `txOrderEx` (keys
`[B, A, B, C]`, interest on `B` and `C`): the emitted list is `[B, C]` —
duplicate-free, all of interest, in first-seen order. -/
theorem accounts_of_interest_first_seen_witness :
    ftOrderEx.accountsOfInterest.Nodup ∧
    (∀ k ∈ ftOrderEx.accountsOfInterest, interestBC k = true) ∧
    ∃ keys,
      getAccountKeys txOrderEx.message
          (resolveLookups resolverNone
            txOrderEx.message.addressTableLookups).1
        = some keys ∧
      ftOrderEx.accountsOfInterest = firstSeen (keys.filter interestBC) :=
  accounts_of_interest_first_seen resolverNone SKIP_TX_IF_CONTAINS_ADDRESS
    interestBC 40 100 txOrderEx ftOrderEx rfl

end JitoBot
